import Mathlib

/-!
Verification of the grid-placement, text-layout, hue-shift and ripple routines of
the python-helpers repository, shallowly embedded over exact rationals.

Python floats are modelled as rationals (exact real arithmetic), Python ints as ℤ,
and the float literals 0.6, 0.3, 0.5 of the source as the rationals 6/10, 3/10, 5/10.
-/

/-- Python `int(...)` on a rational: truncation toward zero. -/
def truncQ (q : ℚ) : ℤ := if 0 ≤ q then ⌊q⌋ else ⌈q⌉

/-- Number of elements of `numpy.arange(start, stop, step)` for a positive step:
`ceil((stop - start) / step)`, clamped at zero. -/
def arangeLen (start stop step : ℚ) : ℕ := (⌈(stop - start) / step⌉).toNat

/-- `numpy.arange(start, stop, step)`: the list `start + i * step` for
`i = 0, ..., arangeLen - 1`. -/
def np_arange (start stop step : ℚ) : List ℚ :=
  (List.range (arangeLen start stop step)).map (fun (i : ℕ) => start + (i : ℚ) * step)

/-- Hole-grid computation of `create_airflow_mesh` (src/3d-mesh/airflow.py, lines
41-53): margin equals the spacing, `x_positions = np.arange(margin, width - margin,
hole_spacing)`, likewise for y, and every (x, y) pair is centered by subtracting
half the width and length.  `add_airflow_holes` (src/printing/create_airflow.py,
lines 125-132) computes the same grid from the bounding box `[0, width] x [0, length]`
of the base cube, without the final centering step; the uncentered coordinates
coincide. -/
def hole_positions (width length hole_spacing : ℚ) : List (ℚ × ℚ) :=
  let margin := hole_spacing
  let x_positions := np_arange margin (width - margin) hole_spacing
  let y_positions := np_arange margin (length - margin) hole_spacing
  x_positions.flatMap (fun x => y_positions.map (fun y => (x - width / 2, y - length / 2)))

/-! Text layout (src/printing/text_stencil.py lines 100-167 and src/printing/stencil.py
lines 201-268; the two copies of `calculate_text_layout` are textually identical up to
the name of the returned width).  Text is modelled as a list of characters and each
word as a list of characters. -/

abbrev Word := List Char

/-- Characters on which Python `str.split()` (no argument) splits. -/
def isSpace (c : Char) : Bool :=
  c = ' ' || c = '\t' || c = '\n' || c = '\r' || c = '\x0b' || c = '\x0c'

/-- Helper for `str_split`: accumulates the current word (reversed) while scanning. -/
def split_words : List Char → Word → List Word
  | [], acc => if acc = [] then [] else [acc.reverse]
  | c :: cs, acc =>
    if isSpace c then
      if acc = [] then split_words cs []
      else acc.reverse :: split_words cs []
    else split_words cs (c :: acc)

/-- Python `text.split()`: split on runs of whitespace, discarding empty pieces. -/
def str_split (text : List Char) : List Word := split_words text []

/-- The loop state of `calculate_text_layout`: accumulated `lines`, the
`current_line` under construction, and its running `current_width`. -/
@[ext]
structure LayoutState where
  lines : List (List Word)
  current_line : List Word
  current_width : ℚ

/-- Estimated word width: `len(word) * text_height * 0.6`. -/
def word_width (text_height : ℚ) (w : Word) : ℚ :=
  (w.length : ℚ) * text_height * (6 / 10)

/-- One iteration of the word loop of `calculate_text_layout`:
`if current_width + word_width <= available_width` append the word to the current
line, else if the current line is nonempty close it and start a new one with the
word, else (a lone word too long for a line) emit `[word]` directly and reset. -/
def layout_step (available_width word_spacing text_height : ℚ)
    (st : LayoutState) (word : Word) : LayoutState :=
  let ww := word_width text_height word
  if st.current_width + ww ≤ available_width then
    { st with current_line := st.current_line ++ [word],
              current_width := st.current_width + ww + word_spacing }
  else if st.current_line ≠ [] then
    { lines := st.lines ++ [st.current_line], current_line := [word],
      current_width := ww + word_spacing }
  else
    { lines := st.lines ++ [[word]], current_line := [], current_width := 0 }

/-- The `if current_line: lines.append(current_line)` step after the loop. -/
def finalize_lines (st : LayoutState) : List (List Word) :=
  if st.current_line = [] then st.lines else st.lines ++ [st.current_line]

/-- The full line-breaking pass of `calculate_text_layout` on a word list. -/
def build_lines (available_width word_spacing text_height : ℚ)
    (words : List Word) : List (List Word) :=
  finalize_lines (words.foldl (layout_step available_width word_spacing text_height) ⟨[], [], 0⟩)

/-- An entry of the returned `word_positions` list. -/
structure WordPlacement where
  word : Word
  x : ℚ
  y : ℚ
  line : ℕ
deriving DecidableEq

/-- Positions of the words of one line: `x_offset` starts at the side margin and
advances by the estimated word width plus the word spacing. -/
def line_positions (text_height word_spacing : ℚ) (line_idx : ℕ) (y_offset : ℚ) :
    ℚ → List Word → List WordPlacement
  | _, [] => []
  | x_offset, w :: ws =>
    ⟨w, x_offset, y_offset, line_idx⟩ ::
      line_positions text_height word_spacing line_idx y_offset
        (x_offset + word_width text_height w + word_spacing) ws

/-- Positions of all lines: `y_offset` starts at the top margin and advances by
`text_height + line_spacing` per line. -/
def lines_positions (text_height word_spacing line_spacing side_margin : ℚ) :
    ℕ → ℚ → List (List Word) → List WordPlacement
  | _, _, [] => []
  | line_idx, y_offset, line :: rest =>
    line_positions text_height word_spacing line_idx y_offset side_margin line ++
      lines_positions text_height word_spacing line_spacing side_margin (line_idx + 1)
        (y_offset + text_height + line_spacing) rest

/-- `calculate_text_layout(text, text_height, max_width, top_margin, side_margin)`:
returns `(rectangle_width, rectangle_height, word_positions)`. -/
def calculate_text_layout (text : List Char)
    (text_height max_width top_margin side_margin : ℚ) :
    ℚ × ℚ × List WordPlacement :=
  let words := str_split text
  let available_width := max_width - 2 * side_margin
  let word_spacing := text_height * (3 / 10)
  let line_spacing := text_height * (5 / 10)
  let lines := build_lines available_width word_spacing text_height words
  let rectangle_width := max_width
  let rectangle_height := (lines.length : ℚ) * text_height +
    ((lines.length : ℚ) - 1) * line_spacing + 2 * top_margin
  (rectangle_width, rectangle_height,
    lines_positions text_height word_spacing line_spacing side_margin 0 top_margin lines)

/-- Modelled from the spec: "pack words greedily left-to-right: append a word to the
current line while the running width (including pending spacing) stays within the
available width; otherwise start a new line."  A new line always begins with the word
that did not fit; the previous current line is closed first when nonempty. -/
def greedy_spec_step (available_width word_spacing text_height : ℚ)
    (st : LayoutState) (word : Word) : LayoutState :=
  let ww := word_width text_height word
  if st.current_width + ww ≤ available_width then
    { st with current_line := st.current_line ++ [word],
              current_width := st.current_width + ww + word_spacing }
  else
    { lines := st.lines ++ (if st.current_line = [] then [] else [st.current_line]),
      current_line := [word], current_width := ww + word_spacing }

/-- Modelled from the spec: the line-breaking pass described by the spec's greedy
packing contract. -/
def greedy_spec_lines (available_width word_spacing text_height : ℚ)
    (words : List Word) : List (List Word) :=
  finalize_lines (words.foldl (greedy_spec_step available_width word_spacing text_height) ⟨[], [], 0⟩)

/-- Simulation relation between the loop state of the source `layout_step` and the
state of the spec's greedy packer: either the two states agree (and an empty current
line has zero running width), or the source has already emitted as a singleton line
an over-wide word that the spec packer still holds as its current line. -/
def SimRel (available_width word_spacing text_height : ℚ) (c s : LayoutState) : Prop :=
  (c = s ∧ (c.current_line = [] → c.current_width = 0)) ∨
  (∃ w : Word,
    c.lines = s.lines ++ [[w]] ∧ c.current_line = [] ∧ c.current_width = 0 ∧
    s.current_line = [w] ∧
    s.current_width = word_width text_height w + word_spacing ∧
    available_width < word_width text_height w)

/-- Loop invariant of the word loop of `calculate_text_layout`: the committed lines
and the current line together spell the processed words in order; the running width
is nonnegative, and zero when the current line is empty; an over-wide word committed
to a line is alone on it; and an over-wide word in the current line is alone there,
with its width bounded by the running width. -/
def LayoutInv (available_width word_spacing text_height : ℚ)
    (processed : List Word) (st : LayoutState) : Prop :=
  st.lines.flatten ++ st.current_line = processed ∧
  0 ≤ st.current_width ∧
  (st.current_line = [] → st.current_width = 0) ∧
  (∀ line ∈ st.lines, ∀ w ∈ line,
    available_width < word_width text_height w → line = [w]) ∧
  (∀ w ∈ st.current_line, available_width < word_width text_height w →
    st.current_line = [w] ∧ word_width text_height w ≤ st.current_width)

/-! Video ripple effect and hue shifts (src/video-manipulation/ripple_shift.py,
src/image-manipulation/hue-shift.py).  The sine function and pi are taken as
abstract parameters standing for `np.sin` and `np.pi`. -/

/-- `np.roll(row, k)`: cyclic shift moving each element `k` places to the right;
`np.roll(row, k)[j] = row[(j - k) mod n]`. -/
def np_roll {α : Type} (l : List α) (k : ℤ) : List α :=
  l.rotate (((-k) % (l.length : ℤ)).toNat)

/-- Row loop of `add_ripple_effect` (src/video-manipulation/ripple_shift.py lines
36-37): row `i` is rolled by `int(ripple_strength * sin(2 * pi * i / ripple_strength))`,
starting from row index `i`. -/
def ripple_rows (sine : ℚ → ℚ) (pi ripple_strength : ℚ) :
    ℕ → List (List ℕ) → List (List ℕ)
  | _, [] => []
  | i, row :: rest =>
    np_roll row (truncQ (ripple_strength * sine (2 * pi * (i : ℚ) / ripple_strength))) ::
      ripple_rows sine pi ripple_strength (i + 1) rest

/-- `add_ripple_effect(frame, ripple_strength)` restricted to its hue plane: every
row of the H channel is cyclically rolled; S and V are untouched by the loop. -/
def add_ripple_effect (sine : ℚ → ℚ) (pi : ℚ)
    (frame_h : List (List ℕ)) (ripple_strength : ℚ) : List (List ℕ) :=
  ripple_rows sine pi ripple_strength 0 frame_h

/-- Per-pixel hue shift of `shift_hue` in src/image-manipulation/hue-shift.py:
`shift_value = int(255 * shift_factor)`; `h.point(lambda i: (i + shift_value) % 256)`. -/
def shift_hue_image (h : ℤ) (shift_factor : ℚ) : ℤ :=
  let shift_value := truncQ (255 * shift_factor)
  (h + shift_value) % 256

/-- Python / numpy floored float modulus: `a % b = a - b * floor(a / b)`. -/
def qmod (a b : ℚ) : ℚ := a - b * ⌊a / b⌋

/-- Per-pixel hue shift of `shift_hue` in src/video-manipulation/ripple_shift.py
(computed in float32): `shift_value = 179 * shift_factor`; `h = (h + shift_value) % 180`. -/
def shift_hue_video (h : ℚ) (shift_factor : ℚ) : ℚ :=
  let shift_value := 179 * shift_factor
  qmod (h + shift_value) 180

theorem mem_np_arange (start stop step : ℚ) (hstep : 0 < step) (q : ℚ) :
    q ∈ np_arange start stop step ↔
      ∃ i : ℕ, q = start + (i : ℚ) * step ∧ start + (i : ℚ) * step < stop := by
  have key : ∀ i : ℕ, i < arangeLen start stop step ↔ start + (i : ℚ) * step < stop := by
    intro i
    rw [arangeLen, Int.lt_toNat, Int.lt_ceil, lt_div_iff₀ hstep]
    push_cast
    constructor <;> intro h <;> linarith
  rw [np_arange, List.mem_map]
  constructor
  · rintro ⟨i, hi, rfl⟩
    rw [List.mem_range] at hi
    exact ⟨i, rfl, (key i).mp hi⟩
  · rintro ⟨i, rfl, hlt⟩
    exact ⟨i, List.mem_range.mpr ((key i).mpr hlt), rfl⟩

theorem np_arange_eq_nil (start stop step : ℚ) (hstep : 0 < step) (h : stop ≤ start) :
    np_arange start stop step = [] := by
  have hle : ⌈(stop - start) / step⌉ ≤ 0 := by
    rw [Int.ceil_le]
    push_cast
    exact div_nonpos_iff.mpr (Or.inr ⟨by linarith, hstep.le⟩)
  simp [np_arange, arangeLen, Int.toNat_of_nonpos hle]

/-- C1: for positive width W, length L and spacing S, with margin equal to S, the
generated hole positions are exactly the points (x - W/2, y - L/2) with x ranging
over S, 2S, 3S, ... strictly below W - S and y ranging over S, 2S, 3S, ... strictly
below L - S: the uncentered coordinates start at S, advance in steps of S, stay
strictly below W - S (resp. L - S), and the grid is centered on the origin. -/
theorem hole_positions_grid (width length spacing : ℚ)
    (hW : 0 < width) (hL : 0 < length) (hS : 0 < spacing) :
    ∀ p : ℚ × ℚ, p ∈ hole_positions width length spacing ↔
      ∃ j k : ℕ,
        p = (spacing + (j : ℚ) * spacing - width / 2,
             spacing + (k : ℚ) * spacing - length / 2) ∧
        spacing + (j : ℚ) * spacing < width - spacing ∧
        spacing + (k : ℚ) * spacing < length - spacing := by
  intro p
  simp only [hole_positions, List.mem_flatMap, List.mem_map]
  constructor
  · rintro ⟨x, hx, y, hy, rfl⟩
    rw [mem_np_arange _ _ _ hS] at hx hy
    obtain ⟨j, rfl, hj⟩ := hx
    obtain ⟨k, rfl, hk⟩ := hy
    exact ⟨j, k, rfl, hj, hk⟩
  · rintro ⟨j, k, rfl, hj, hk⟩
    refine ⟨spacing + (j : ℚ) * spacing, ?_, spacing + (k : ℚ) * spacing, ?_, rfl⟩
    · exact (mem_np_arange _ _ _ hS _).mpr ⟨j, rfl, hj⟩
    · exact (mem_np_arange _ _ _ hS _).mpr ⟨k, rfl, hk⟩

theorem hole_positions_grid_witness :
    (0 < (20 : ℚ)) ∧ (0 < (20 : ℚ)) ∧ (0 < (5 : ℚ)) ∧
    (((0 : ℚ), (0 : ℚ)) ∈ hole_positions 20 20 5 ↔
      ∃ j k : ℕ,
        ((0 : ℚ), (0 : ℚ)) = ((5 : ℚ) + (j : ℚ) * 5 - 20 / 2, (5 : ℚ) + (k : ℚ) * 5 - 20 / 2) ∧
        (5 : ℚ) + (j : ℚ) * 5 < 20 - 5 ∧ (5 : ℚ) + (k : ℚ) * 5 < 20 - 5) :=
  ⟨by norm_num, by norm_num, by norm_num,
    hole_positions_grid 20 20 5 (by norm_num) (by norm_num) (by norm_num) ((0 : ℚ), (0 : ℚ))⟩

/-- C2: for positive W, L, S with W ≤ 2S or L ≤ 2S, the generated sequence of hole
positions is empty; the empty grid is returned as a valid result and no error is
raised (the embedding is a total function). -/
theorem hole_positions_degenerate (width length spacing : ℚ)
    (hW : 0 < width) (hL : 0 < length) (hS : 0 < spacing)
    (h : width ≤ 2 * spacing ∨ length ≤ 2 * spacing) :
    hole_positions width length spacing = [] := by
  rcases h with h | h
  · have hx : np_arange spacing (width - spacing) spacing = [] :=
      np_arange_eq_nil _ _ _ hS (by linarith)
    simp [hole_positions, hx]
  · have hy : np_arange spacing (length - spacing) spacing = [] :=
      np_arange_eq_nil _ _ _ hS (by linarith)
    simp [hole_positions, hy]

theorem hole_positions_degenerate_witness :
    (0 < (4 : ℚ)) ∧ (0 < (20 : ℚ)) ∧ (0 < (5 : ℚ)) ∧
    ((4 : ℚ) ≤ 2 * 5 ∨ (20 : ℚ) ≤ 2 * 5) ∧ hole_positions 4 20 5 = [] :=
  ⟨by norm_num, by norm_num, by norm_num, Or.inl (by norm_num),
    hole_positions_degenerate 4 20 5 (by norm_num) (by norm_num) (by norm_num)
      (Or.inl (by norm_num))⟩

theorem arangeLen_5_15_5 : arangeLen 5 15 5 = 2 := by
  have h : ((15 : ℚ) - 5) / 5 = 2 := by norm_num
  rw [arangeLen, h]
  rfl

/-- C3 counterexample: for W = 20, L = 20, S = 5 the code produces FOUR points, not
one, and 15 is not among the uncentered coordinates (np.arange(5, 15, 5) = [5, 10],
the stop value being exclusive). -/
theorem hole_positions_20_20_5_not_single :
    (hole_positions 20 20 5).length = 4 ∧ (hole_positions 20 20 5).length ≠ 1 ∧
    (15 : ℚ) ∉ np_arange 5 15 5 := by
  have hxs : np_arange 5 15 5 = [5, 10] := by
    rw [np_arange, arangeLen_5_15_5]
    simp [List.range_succ]
    norm_num
  have hgrid : hole_positions 20 20 5 = [(-5, -5), (-5, 0), (0, -5), (0, 0)] := by
    rw [hole_positions]
    norm_num [hxs]
  refine ⟨by rw [hgrid]; rfl, by rw [hgrid]; simp, ?_⟩
  rw [hxs]
  norm_num

/-- C3 amended: for W = 20, L = 20, S = 5 the uncentered x and y coordinates are
{5, 10} (15 is excluded because the arange stop W - S = 15 is exclusive), so the
result is the four centered points (-5,-5), (-5,0), (0,-5), (0,0), exactly one of
which is (0, 0). -/
theorem hole_positions_20_20_5_eval :
    np_arange 5 15 5 = [5, 10] ∧
    hole_positions 20 20 5 = [(-5, -5), (-5, 0), (0, -5), (0, 0)] ∧
    (hole_positions 20 20 5).count ((0 : ℚ), (0 : ℚ)) = 1 := by
  have hxs : np_arange 5 15 5 = [5, 10] := by
    rw [np_arange, arangeLen_5_15_5]
    simp [List.range_succ]
    norm_num
  have hgrid : hole_positions 20 20 5 = [(-5, -5), (-5, 0), (0, -5), (0, 0)] := by
    rw [hole_positions]
    norm_num [hxs]
  refine ⟨hxs, hgrid, ?_⟩
  rw [hgrid]
  norm_num [List.count_cons]

theorem ripple_rows_get (sine : ℚ → ℚ) (pi rs : ℚ) (rows : List (List ℕ)) :
    ∀ (j i : ℕ),
      (ripple_rows sine pi rs j rows).get? i =
        (rows.get? i).map
          (fun row => np_roll row (truncQ (rs * sine (2 * pi * ((j + i : ℕ) : ℚ) / rs)))) := by
  induction rows with
  | nil => intro j i; simp [ripple_rows]
  | cons row rest ih =>
    intro j i
    cases i with
    | zero => simp [ripple_rows]
    | succ i =>
      have h := ih (j + 1) i
      have hn : j + 1 + i = j + (i + 1) := by omega
      simp only [ripple_rows, List.get?_cons_succ, h, hn]

/-- C8: in the ripple effect, row i of the hue channel is cyclically rolled by
`int(ripple_strength * sin(2 * pi * i / ripple_strength))`: the single parameter
`ripple_strength` is used both as the amplitude of the roll and, inversely, as the
divisor setting the spatial frequency of the sine.  Stated for every interpretation
of the sine function and of pi. -/
theorem add_ripple_effect_roll (sine : ℚ → ℚ) (pi ripple_strength : ℚ)
    (frame_h : List (List ℕ)) (i : ℕ) :
    (add_ripple_effect sine pi frame_h ripple_strength).get? i =
      (frame_h.get? i).map
        (fun row =>
          np_roll row (truncQ (ripple_strength * sine (2 * pi * (i : ℚ) / ripple_strength)))) := by
  have h := ripple_rows_get sine pi ripple_strength frame_h 0 i
  simpa using h

/-- C9: both hue shifts wrap cyclically: the image script computes
`(h + int(255 * f)) % 256` and the video script `(h + 179 * f) % 180`, and in both
cases the result lies in [0, R) for the respective range R; nothing is clamped and
no error is possible. -/
theorem shift_hue_mod_range (h : ℤ) (hq f : ℚ) :
    shift_hue_image h f = (h + truncQ (255 * f)) % 256 ∧
    0 ≤ shift_hue_image h f ∧ shift_hue_image h f < 256 ∧
    shift_hue_video hq f = qmod (hq + 179 * f) 180 ∧
    0 ≤ shift_hue_video hq f ∧ shift_hue_video hq f < 180 := by
  refine ⟨rfl, Int.emod_nonneg _ (by norm_num), Int.emod_lt_of_pos _ (by norm_num),
    rfl, ?_, ?_⟩
  · have hfl : (⌊(hq + 179 * f) / 180⌋ : ℚ) ≤ (hq + 179 * f) / 180 := Int.floor_le _
    have h2 : (180 : ℚ) * ((hq + 179 * f) / 180) = hq + 179 * f := by ring
    have h3 := mul_le_mul_of_nonneg_left hfl (show (0 : ℚ) ≤ 180 by norm_num)
    simp only [shift_hue_video, qmod]
    linarith
  · have hfl : (hq + 179 * f) / 180 < ⌊(hq + 179 * f) / 180⌋ + 1 := Int.lt_floor_add_one _
    have h2 : (180 : ℚ) * ((hq + 179 * f) / 180) = hq + 179 * f := by ring
    have h3 := mul_lt_mul_of_pos_left hfl (show (0 : ℚ) < 180 by norm_num)
    simp only [shift_hue_video, qmod]
    linarith

/-- C6: the returned total content height always equals
`lines * text_height + (lines - 1) * line_spacing + 2 * top_margin`, where `lines`
is the number of lines produced by the greedy packing and the line spacing is
`text_height * 0.5`. -/
theorem rectangle_height_formula (text : List Char)
    (text_height max_width top_margin side_margin : ℚ) :
    (calculate_text_layout text text_height max_width top_margin side_margin).2.1 =
      ((build_lines (max_width - 2 * side_margin) (text_height * (3 / 10)) text_height
          (str_split text)).length : ℚ) * text_height +
      (((build_lines (max_width - 2 * side_margin) (text_height * (3 / 10)) text_height
          (str_split text)).length : ℚ) - 1) * (text_height * (5 / 10)) +
      2 * top_margin := rfl

/-- C7: the layout computation is a pure function of its arguments: two calls with
identical arguments return identical results (the source reads nothing but its
parameters and locals, which the embedding as a function makes definitional). -/
theorem calculate_text_layout_deterministic (text : List Char)
    (text_height max_width top_margin side_margin : ℚ) :
    calculate_text_layout text text_height max_width top_margin side_margin =
      calculate_text_layout text text_height max_width top_margin side_margin := rfl

theorem split_words_all_space (text : List Char) (h : ∀ c ∈ text, isSpace c = true) :
    split_words text [] = [] := by
  induction text with
  | nil => rfl
  | cons c cs ih =>
    have hc : isSpace c = true := h c (by simp)
    simp only [split_words, hc, if_true, if_pos rfl]
    exact ih (fun x hx => h x (by simp [hx]))

/-- C10: on empty or whitespace-only text the layout returns zero word placements
and a content height of `2 * top_margin - line_spacing` (the `lines - 1` term is -1
for zero lines), which is negative whenever the line spacing exceeds twice the top
margin. -/
theorem layout_whitespace_only (text : List Char)
    (text_height max_width top_margin side_margin : ℚ)
    (hws : ∀ c ∈ text, isSpace c = true) :
    (calculate_text_layout text text_height max_width top_margin side_margin).2.2 = [] ∧
    (calculate_text_layout text text_height max_width top_margin side_margin).2.1 =
      2 * top_margin - text_height * (5 / 10) ∧
    (2 * top_margin < text_height * (5 / 10) →
      (calculate_text_layout text text_height max_width top_margin side_margin).2.1 < 0) := by
  have hsplit : str_split text = [] := split_words_all_space text hws
  have hlines : build_lines (max_width - 2 * side_margin) (text_height * (3 / 10))
      text_height (str_split text) = [] := by
    rw [hsplit]; rfl
  refine ⟨?_, ?_, ?_⟩
  · simp [calculate_text_layout, hlines, lines_positions]
  · simp only [calculate_text_layout, hlines, List.length_nil]
    push_cast
    ring
  · intro hlt
    simp only [calculate_text_layout, hlines, List.length_nil]
    push_cast
    linarith

theorem layout_whitespace_only_witness :
    (∀ c ∈ ([' '] : List Char), isSpace c = true) ∧
    ((calculate_text_layout [' '] 10 100 2 0).2.2 = [] ∧
     (calculate_text_layout [' '] 10 100 2 0).2.1 = 2 * 2 - 10 * (5 / 10) ∧
     ((2 : ℚ) * 2 < 10 * (5 / 10) → (calculate_text_layout [' '] 10 100 2 0).2.1 < 0)) :=
  ⟨by decide, layout_whitespace_only [' '] 10 100 2 0 (by decide)⟩

theorem simRel_step (available_width word_spacing text_height : ℚ)
    (hth : 0 ≤ text_height) (hsp : 0 ≤ word_spacing)
    (c s : LayoutState) (w : Word)
    (hcs : SimRel available_width word_spacing text_height c s) :
    SimRel available_width word_spacing text_height
      (layout_step available_width word_spacing text_height c w)
      (greedy_spec_step available_width word_spacing text_height s w) := by
  have hww : 0 ≤ word_width text_height w := by
    rw [word_width]; positivity
  rcases hcs with ⟨rfl, hinv⟩ | ⟨v, hl, hc, hw0, hsc, hsw, hov⟩
  · simp only [layout_step, greedy_spec_step]
    by_cases hfit : c.current_width + word_width text_height w ≤ available_width
    · rw [if_pos hfit, if_pos hfit]
      left
      exact ⟨rfl, fun h => absurd h (by simp)⟩
    · rw [if_neg hfit, if_neg hfit]
      by_cases hnil : c.current_line = []
      · rw [if_neg (show ¬ c.current_line ≠ [] from by simp [hnil]), if_pos hnil]
        right
        have hcw0 : c.current_width = 0 := hinv hnil
        refine ⟨w, by simp, rfl, rfl, rfl, rfl, ?_⟩
        push_neg at hfit
        rw [hcw0] at hfit
        linarith
      · rw [if_pos hnil, if_neg hnil]
        left
        exact ⟨rfl, fun h => absurd h (by simp)⟩
  · have hsfit : ¬ (s.current_width + word_width text_height w ≤ available_width) := by
      rw [hsw]
      intro hcon
      linarith
    simp only [layout_step, greedy_spec_step]
    rw [if_neg hsfit, if_neg (show ¬ s.current_line = [] from by simp [hsc])]
    by_cases hcfit : c.current_width + word_width text_height w ≤ available_width
    · rw [if_pos hcfit]
      left
      constructor
      · apply LayoutState.ext <;> simp [hl, hc, hw0, hsc]
      · intro h
        rw [hc] at h
        exact absurd h (by simp)
    · rw [if_neg hcfit, if_neg (show ¬ c.current_line ≠ [] from by simp [hc])]
      right
      refine ⟨w, by simp [hl, hsc], rfl, rfl, rfl, rfl, ?_⟩
      push_neg at hcfit
      rw [hw0] at hcfit
      linarith

theorem simRel_foldl (available_width word_spacing text_height : ℚ)
    (hth : 0 ≤ text_height) (hsp : 0 ≤ word_spacing) :
    ∀ (ws : List Word) (c s : LayoutState),
      SimRel available_width word_spacing text_height c s →
      SimRel available_width word_spacing text_height
        (ws.foldl (layout_step available_width word_spacing text_height) c)
        (ws.foldl (greedy_spec_step available_width word_spacing text_height) s)
  | [], _, _, h => h
  | w :: ws, c, s, h =>
    simRel_foldl available_width word_spacing text_height hth hsp ws _ _
      (simRel_step available_width word_spacing text_height hth hsp c s w h)

theorem simRel_finalize (available_width word_spacing text_height : ℚ)
    (c s : LayoutState) (h : SimRel available_width word_spacing text_height c s) :
    finalize_lines c = finalize_lines s := by
  rcases h with ⟨rfl, -⟩ | ⟨w, hl, hc, -, hsc, -, -⟩
  · rfl
  · rw [finalize_lines, finalize_lines, if_pos hc, if_neg (by simp [hsc]), hl, hsc]

/-- C4: the word loop of `calculate_text_layout` implements the spec's greedy
left-to-right packing: a word joins the current line exactly when the running width
(which accumulates each placed word's width plus the pending inter-word spacing)
plus the word's width stays within the available width, and otherwise a new line
starts.  In particular for text "A BB CCC", height 10, max width 100 and zero
margins, the word widths are 6, 12, 18 with spacing 3, all three words land on one
line, and the content height is 10. -/
theorem layout_greedy_packing (text : List Char) (text_height max_width side_margin : ℚ)
    (hth : 0 ≤ text_height) :
    build_lines (max_width - 2 * side_margin) (text_height * (3 / 10)) text_height
        (str_split text) =
      greedy_spec_lines (max_width - 2 * side_margin) (text_height * (3 / 10)) text_height
        (str_split text) ∧
    build_lines (100 - 2 * 0) (10 * (3 / 10)) 10
        (str_split ['A', ' ', 'B', 'B', ' ', 'C', 'C', 'C']) =
      [[['A'], ['B', 'B'], ['C', 'C', 'C']]] ∧
    (calculate_text_layout ['A', ' ', 'B', 'B', ' ', 'C', 'C', 'C'] 10 100 0 0).2.1 = 10 := by
  have hsplit : str_split ['A', ' ', 'B', 'B', ' ', 'C', 'C', 'C'] =
      [['A'], ['B', 'B'], ['C', 'C', 'C']] := by decide
  have hbuild : build_lines (100 - 2 * 0) (10 * (3 / 10)) 10
      [['A'], ['B', 'B'], ['C', 'C', 'C']] = [[['A'], ['B', 'B'], ['C', 'C', 'C']]] := by
    simp only [build_lines, List.foldl_cons, List.foldl_nil, layout_step, word_width,
      finalize_lines]
    norm_num
    simp
  refine ⟨?_, ?_, ?_⟩
  · rw [build_lines, greedy_spec_lines]
    apply simRel_finalize
    apply simRel_foldl _ _ _ hth (by positivity)
    left
    exact ⟨rfl, fun _ => rfl⟩
  · rw [hsplit]
    exact hbuild
  · simp only [calculate_text_layout, hsplit, hbuild]
    norm_num

theorem layout_greedy_packing_witness :
    (0 ≤ (10 : ℚ)) ∧
    (build_lines (100 - 2 * 0) (10 * (3 / 10)) 10
        (str_split ['A', ' ', 'B', 'B', ' ', 'C', 'C', 'C']) =
      greedy_spec_lines (100 - 2 * 0) (10 * (3 / 10)) 10
        (str_split ['A', ' ', 'B', 'B', ' ', 'C', 'C', 'C']) ∧
    build_lines (100 - 2 * 0) (10 * (3 / 10)) 10
        (str_split ['A', ' ', 'B', 'B', ' ', 'C', 'C', 'C']) =
      [[['A'], ['B', 'B'], ['C', 'C', 'C']]] ∧
    (calculate_text_layout ['A', ' ', 'B', 'B', ' ', 'C', 'C', 'C'] 10 100 0 0).2.1 = 10) :=
  ⟨by norm_num,
   layout_greedy_packing ['A', ' ', 'B', 'B', ' ', 'C', 'C', 'C'] 10 100 0 (by norm_num)⟩

theorem layoutInv_step (available_width word_spacing text_height : ℚ)
    (hth : 0 ≤ text_height) (hsp : 0 ≤ word_spacing)
    (processed : List Word) (st : LayoutState) (w : Word)
    (h : LayoutInv available_width word_spacing text_height processed st) :
    LayoutInv available_width word_spacing text_height (processed ++ [w])
      (layout_step available_width word_spacing text_height st w) := by
  obtain ⟨hflat, hw0, hempty, hlines, hcur⟩ := h
  have hww : 0 ≤ word_width text_height w := by
    rw [word_width]; positivity
  simp only [layout_step]
  by_cases hfit : st.current_width + word_width text_height w ≤ available_width
  · rw [if_pos hfit]
    refine ⟨?_, by dsimp only; linarith, fun hc => absurd hc (by simp), hlines, ?_⟩
    · show st.lines.flatten ++ (st.current_line ++ [w]) = processed ++ [w]
      rw [← List.append_assoc, hflat]
    · intro w2 hw2 hov
      exfalso
      rcases List.mem_append.mp hw2 with hmem | hmem
      · obtain ⟨-, hle⟩ := hcur w2 hmem hov
        linarith
      · have hw2w : w2 = w := List.mem_singleton.mp hmem
        rw [hw2w] at hov
        linarith
  · rw [if_neg hfit]
    by_cases hnil : st.current_line = []
    · rw [if_neg (show ¬ st.current_line ≠ [] from by simp [hnil])]
      refine ⟨?_, le_refl 0, fun _ => rfl, ?_, fun w2 hw2 => absurd hw2 (by simp)⟩
      · show (st.lines ++ [[w]]).flatten ++ [] = processed ++ [w]
        rw [List.flatten_append]
        simp only [List.flatten_cons, List.flatten_nil, List.append_nil]
        rw [hnil, List.append_nil] at hflat
        rw [hflat]
      · intro line hline w2 hw2 hov
        rcases List.mem_append.mp hline with hmem | hmem
        · exact hlines line hmem w2 hw2 hov
        · obtain rfl := List.mem_singleton.mp hmem
          have hw2w : w2 = w := List.mem_singleton.mp hw2
          rw [hw2w]
    · rw [if_pos hnil]
      refine ⟨?_, by dsimp only; linarith, fun hc => absurd hc (by simp), ?_, ?_⟩
      · show (st.lines ++ [st.current_line]).flatten ++ [w] = processed ++ [w]
        rw [List.flatten_append]
        simp only [List.flatten_cons, List.flatten_nil, List.append_nil]
        rw [hflat]
      · intro line hline w2 hw2 hov
        rcases List.mem_append.mp hline with hmem | hmem
        · exact hlines line hmem w2 hw2 hov
        · obtain rfl := List.mem_singleton.mp hmem
          exact (hcur w2 hw2 hov).1
      · intro w2 hw2 hov
        obtain rfl := List.mem_singleton.mp hw2
        exact ⟨rfl, by dsimp only; linarith⟩

theorem layoutInv_foldl (available_width word_spacing text_height : ℚ)
    (hth : 0 ≤ text_height) (hsp : 0 ≤ word_spacing) :
    ∀ (ws processed : List Word) (st : LayoutState),
      LayoutInv available_width word_spacing text_height processed st →
      LayoutInv available_width word_spacing text_height (processed ++ ws)
        (ws.foldl (layout_step available_width word_spacing text_height) st)
  | [], processed, st, h => by simpa using h
  | w :: ws, processed, st, h => by
    have h2 := layoutInv_step available_width word_spacing text_height hth hsp processed st w h
    have h3 := layoutInv_foldl available_width word_spacing text_height hth hsp ws
      (processed ++ [w]) _ h2
    simpa using h3

/-- C5: for every input containing a word whose estimated width exceeds the
available width, the layout loop still returns a result (the embedding is a total
function), no word is split, truncated or dropped (the produced lines flatten back
to the exact word sequence), and every over-wide word is the sole word of its
line. -/
theorem long_word_own_line (text : List Char) (text_height available_width : ℚ)
    (hth : 0 ≤ text_height)
    (hlong : ∃ w ∈ str_split text, available_width < word_width text_height w) :
    (build_lines available_width (text_height * (3 / 10)) text_height
        (str_split text)).flatten = str_split text ∧
    ∀ line ∈ build_lines available_width (text_height * (3 / 10)) text_height
        (str_split text),
      ∀ w ∈ line, available_width < word_width text_height w → line = [w] := by
  have hsp : (0 : ℚ) ≤ text_height * (3 / 10) := by positivity
  have hinit : LayoutInv available_width (text_height * (3 / 10)) text_height []
      ⟨[], [], 0⟩ := by
    refine ⟨rfl, le_refl 0, fun _ => rfl, ?_, ?_⟩ <;>
      · intro x hx
        exact absurd hx (by simp)
  have hfold := layoutInv_foldl available_width (text_height * (3 / 10)) text_height hth hsp
    (str_split text) [] ⟨[], [], 0⟩ hinit
  simp only [List.nil_append] at hfold
  obtain ⟨hflat, -, -, hlines, hcur⟩ := hfold
  rw [build_lines]
  constructor
  · rw [finalize_lines]
    split_ifs with hnil
    · rw [hnil, List.append_nil] at hflat
      exact hflat
    · rw [List.flatten_append]
      simp only [List.flatten_cons, List.flatten_nil, List.append_nil]
      exact hflat
  · intro line hline w hw hov
    rw [finalize_lines] at hline
    split_ifs at hline with hnil
    · exact hlines line hline w hw hov
    · rcases List.mem_append.mp hline with hmem | hmem
      · exact hlines line hmem w hw hov
      · obtain rfl := List.mem_singleton.mp hmem
        exact (hcur w hw hov).1

theorem long_word_own_line_witness :
    (0 ≤ (10 : ℚ)) ∧
    (∃ w ∈ str_split ['H', 'E', 'L', 'L', 'O'], (20 : ℚ) < word_width 10 w) ∧
    ((build_lines 20 (10 * (3 / 10)) 10 (str_split ['H', 'E', 'L', 'L', 'O'])).flatten =
        str_split ['H', 'E', 'L', 'L', 'O'] ∧
     ∀ line ∈ build_lines 20 (10 * (3 / 10)) 10 (str_split ['H', 'E', 'L', 'L', 'O']),
       ∀ w ∈ line, (20 : ℚ) < word_width 10 w → line = [w]) :=
  ⟨by norm_num,
   ⟨['H', 'E', 'L', 'L', 'O'], by decide, by norm_num [word_width]⟩,
   long_word_own_line ['H', 'E', 'L', 'L', 'O'] 10 20 (by norm_num)
     ⟨['H', 'E', 'L', 'L', 'O'], by decide, by norm_num [word_width]⟩⟩
